import Mathlib

/-!
# Verification of the scuemata version-search and instance-utility surface

This file gives a shallow embedding of `surface.go` from grafana/scuemata:
the schema-chain search functions (`Find`, `AsArray`, `SearchAndValidate`),
the search-option plumbing (`ssopt`, its `validate`, and the four option
constructors), and the instance utilities (`ApplyDefaults`, `TrimDefaults`,
`getDefault`, `isCueValueEqual`, `getBranch` and their helpers).

The third-party constraint engine (cuelang) is out of scope for the
repository itself; its operations are modelled from the adapter contract in
the specification (compile, unify, subsume, kind, fields, defaults, paths,
list access).  Every such modelled definition carries a doc comment saying
so.  Go `panic`s are modelled as the `.error` branch of `Except` (or the
`.panic` branch of `Outcome`); normal error returns are modelled as values.
-/

namespace Scuemata

/-- A schema node of a lineage chain, specialised to one fixed instance:
`major`/`minor` are the Go `Version()` pair, `verr` is the result of
`Validate` on the instance under consideration (`none` = success).  A Go
`Schema` reference is modelled as the suffix of the chain that starts at
that schema; the empty list is the nil `Schema`. -/
structure Sch where
  major : Int
  minor : Int
  verr : Option String
deriving DecidableEq, Repr

/-- The `ssopt` struct from `surface.go` collecting search options. -/
structure Ssopt where
  latest : Bool
  latestInMajor : Int
  hasLatestInMajor : Bool
  latestInCurrentMajor : Bool
  exact : Int × Int
deriving DecidableEq, Repr

/-- The zero value of `ssopt` (Go zero-initialises `&ssopt{}`). -/
def ssoptZero : Ssopt :=
  { latest := false, latestInMajor := 0, hasLatestInMajor := false
    latestInCurrentMajor := false, exact := (0, 0) }

/-- `bits.OnesCount16` from the Go standard library: population count of a
16-bit word. -/
def onesCount16 (n : Nat) : Nat :=
  ((List.range 16).filter (fun i => n.testBit i)).length

/-- `ssopt.validate` from `surface.go`: counts which option modes are set
(as bits of a 16-bit word) and rejects unless exactly one is. `some msg`
models a non-nil error return. -/
def Ssopt.validate (p : Ssopt) : Option String :=
  let w1 : Nat := if p.latest then 0 + 2 ^ 1 else 0
  let w2 : Nat := if p.exact ≠ ((0 : Int), (0 : Int)) then w1 + 2 ^ 2 else w1
  if p.hasLatestInMajor then
    let w3 : Nat := if p.latestInMajor ≠ -1 then w2 + 2 ^ 3 else w2
    let w4 : Nat := if p.latestInCurrentMajor then w3 + 2 ^ 4 else w3
    if onesCount16 w4 ≠ 1 then some "may only pass one SchemaSearchOption" else none
  else if p.latestInMajor ≠ 0 then
    some ("latestInMajor should never be non-zero if hasLatestInMajor is false, got "
      ++ toString p.latestInMajor)
  else
    let w4 : Nat := if p.latestInCurrentMajor then w2 + 2 ^ 4 else w2
    if onesCount16 w4 ≠ 1 then some "may only pass one SchemaSearchOption" else none

/-- A `SearchOption` is a functional option mutating an `ssopt`. -/
def SearchOption : Type := Ssopt → Ssopt

/-- `Latest()` option constructor from `surface.go`. -/
def Latest : SearchOption := fun p => { p with latest := true }

/-- `LatestInMajor(maj)` option constructor from `surface.go`.  Note that
it sets only `latestInMajor`, never `hasLatestInMajor`. -/
def LatestInMajor (maj : Int) : SearchOption := fun p => { p with latestInMajor := maj }

/-- `LatestInCurrentMajor()` option constructor from `surface.go`. -/
def LatestInCurrentMajor : SearchOption := fun p => { p with latestInCurrentMajor := true }

/-- `Exact(maj, min)` option constructor from `surface.go`. -/
def Exact (maj mi : Int) : SearchOption := fun p => { p with exact := (maj, mi) }

/-- The `latest` arm of `Find`: walk successors to the end of the chain. -/
def latestWalk : List Sch → List Sch
  | [] => []
  | [x] => [x]
  | _ :: x :: t => latestWalk (x :: t)

/-- The loop of the `latestInMajor` arm of `Find`: `last` is the previously
visited schema, the head of the argument is the current schema `s`, whose
major version plays the role of `imaj`. -/
def limLoop (target : Int) (last : List Sch) : List Sch → List Sch
  | [] => []
  | h :: t =>
    if h.major ≤ target then
      match t with
      | [] => if h.major = target then h :: t else []
      | h2 :: t2 => limLoop target (h :: t) (h2 :: t2)
    else last

/-- The `exact` (default) arm of `Find`: walk successors until the exact
`(major, minor)` pair is met, or the end of the chain. -/
def exactWalk (e : Int × Int) : List Sch → List Sch
  | [] => []
  | h :: t => if e = (h.major, h.minor) then h :: t else exactWalk e t

/-- `Find` from `surface.go`.  `.error msg` models the
`panic(fmt.Sprint("unreachable:", err))` raised when `ssopt.validate`
fails; `.ok []` models a nil `Schema` return. -/
def Find (s : List Sch) (opt : SearchOption) : Except String (List Sch) :=
  match s with
  | [] => .ok []
  | h :: t =>
    let p := opt ssoptZero
    match p.validate with
    | some e => .error ("unreachable:" ++ e)
    | none =>
      if p.latest then
        .ok (latestWalk (h :: t))
      else if p.latestInCurrentMajor then
        -- fallthrough: `p.latestInMajor, _ = s.Version()` then the
        -- `hasLatestInMajor` body runs with that target
        .ok (if h.major > h.major then [] else limLoop h.major [] (h :: t))
      else if p.hasLatestInMajor then
        .ok (if h.major > p.latestInMajor then [] else limLoop p.latestInMajor [] (h :: t))
      else
        .ok (exactWalk p.exact (h :: t))

/-- Number of search modes an `ssopt` selects; each summand matches one bit
that `ssopt.validate` accumulates into `which`. -/
def modeCount (p : Ssopt) : Nat :=
  (if p.latest then 1 else 0)
    + (if p.exact ≠ ((0 : Int), (0 : Int)) then 1 else 0)
    + (if p.hasLatestInMajor ∧ p.latestInMajor ≠ -1 then 1 else 0)
    + (if p.latestInCurrentMajor then 1 else 0)

/-- The grouping loop of `AsArray` from `surface.go`: for each schema of
`flat`, extend `ret` with a fresh empty group when `len(ret) == maj`, then
append the schema to `ret[maj]`.  The out-of-bounds index access `ret[maj]`
(a Go runtime panic) is modelled by the `.error` branch. -/
def asArrayLoop : List Sch → List (List Sch) → Except String (List (List Sch))
  | [], ret => .ok ret
  | sch :: rest, ret =>
    let ret1 := if (ret.length : Int) = sch.major then ret ++ [[]] else ret
    if h : 0 ≤ sch.major ∧ sch.major.toNat < ret1.length then
      asArrayLoop rest (ret1.set sch.major.toNat (ret1.get ⟨sch.major.toNat, h.2⟩ ++ [sch]))
    else
      .error "runtime error: index out of range"

/-- `AsArray` from `surface.go`: collate the chain reachable from the given
schema into a two-dimensional array indexed by major then minor version.
The walk of the successor chain produces `flat`, which in this model is the
argument list itself. -/
def AsArray (sch : List Sch) : Except String (List (List Sch)) :=
  asArrayLoop sch []

/-- The inner (minor-descending) loop of `SearchAndValidate`, applied to an
already-reversed inner array; threads the `err` variable through. -/
def savScanFlat : List Sch → Option String → Option Sch × Option String
  | [], err => (none, err)
  | x :: rest, _ =>
    match x.verr with
    | none => (some x, none)
    | some e => savScanFlat rest (some e)

/-- The outer (major-descending) loop of `SearchAndValidate`, applied to the
already-reversed outer array. -/
def savOuter : List (List Sch) → Option String → Option Sch × Option String
  | [], err => (none, err)
  | grp :: rest, err =>
    match savScanFlat grp.reverse err with
    | (some s, e) => (some s, e)
    | (none, err2) => savOuter rest err2

/-- `SearchAndValidate` from `surface.go`: collate the chain with `AsArray`
(whose panic propagates), then walk from latest to earliest, returning the
first schema whose `Validate` succeeds, else `(nil, err)` where `err` is
whatever the last `Validate` call left in the loop variable. -/
def SearchAndValidate (s : List Sch) : Except String (Option Sch × Option String) :=
  match AsArray s with
  | .error e => .error e
  | .ok arr => .ok (savOuter arr.reverse none)

/-- Successor relation of versions inside a valid lineage: the next schema
is either the next minor of the same major, or the first schema of the next
major. -/
def nextVer (a b : Sch) : Prop :=
  (b.major = a.major ∧ b.minor = a.minor + 1) ∨ (b.major = a.major + 1 ∧ b.minor = 0)

/-- Strict version order (major, then minor). -/
def verLT (a b : Sch) : Prop :=
  a.major < b.major ∨ (a.major = b.major ∧ a.minor < b.minor)

/-- A chain as produced by a valid lineage loader: starts at version
`(0, 0)` and steps through `nextVer`. -/
def validChain (l : List Sch) : Prop :=
  (∀ h ∈ l.head?, h.major = 0 ∧ h.minor = 0) ∧ l.Chain' nextVer

/-- Non-strict version order (major, then minor). -/
def verLE (a b : Sch) : Prop :=
  a.major < b.major ∨ (a.major = b.major ∧ a.minor ≤ b.minor)

lemma verLT_trans : Transitive verLT := by
  intro a b c hab hbc
  rcases hab with h | ⟨h1, h2⟩ <;> rcases hbc with h' | ⟨h1', h2'⟩ <;>
    simp only [verLT] <;> omega

instance : IsTrans Sch verLT := ⟨fun _ _ _ hab hbc => verLT_trans hab hbc⟩

lemma nextVer_verLT {a b : Sch} (h : nextVer a b) : verLT a b := by
  rcases h with ⟨h1, h2⟩ | ⟨h1, h2⟩ <;> simp only [verLT] <;> omega

lemma validChain_pairwise {l : List Sch} (hc : l.Chain' nextVer) : l.Pairwise verLT :=
  List.chain'_iff_pairwise.mp (hc.imp fun _ _ => nextVer_verLT)

lemma flatten_set_last (G : List (List Sch)) (i : Nat) (hi : i < G.length)
    (hilast : i + 1 = G.length) (a : Sch) :
    (G.set i (G.get ⟨i, hi⟩ ++ [a])).flatten = G.flatten ++ [a] := by
  induction G generalizing i with
  | nil => simp at hi
  | cons g G ih =>
    cases G with
    | nil =>
      have : i = 0 := by simpa using hilast
      subst this
      simp
    | cons g2 G2 =>
      have : ∃ j, i = j + 1 := by
        rcases i with _ | j
        · simp at hilast
        · exact ⟨j, rfl⟩
      obtain ⟨j, rfl⟩ := this
      have hj : j < (g2 :: G2).length := by simpa using hi
      have hjl : j + 1 = (g2 :: G2).length := by simpa using hilast
      simp only [List.set_cons_succ, List.flatten_cons, List.get_cons_succ]
      rw [ih j hj hjl]
      simp

lemma asArrayLoop_ok (flat : List Sch) :
    ∀ (ret : List (List Sch)) (m : Int),
      (ret.length : Int) = m + 1 → 0 ≤ m →
      (∀ h ∈ flat.head?, h.major = m ∨ h.major = m + 1) →
      flat.Chain' nextVer →
      ∃ G, asArrayLoop flat ret = .ok G ∧ G.flatten = ret.flatten ++ flat := by
  induction flat with
  | nil => exact fun ret m _ _ _ _ => ⟨ret, rfl, by simp⟩
  | cons sch rest ih =>
    intro ret m hlen hm hhead hchain
    have hmaj : sch.major = m ∨ sch.major = m + 1 := by
      simpa using hhead sch (by simp)
    have hheadrest : ∀ h ∈ rest.head?, h.major = sch.major ∨ h.major = sch.major + 1 := by
      intro h hh
      cases rest with
      | nil => simp at hh
      | cons r rs =>
        simp only [List.head?_cons, Option.mem_def, Option.some.injEq] at hh
        subst hh
        rcases (List.chain'_cons.mp hchain).1 with ⟨h1, _⟩ | ⟨h1, _⟩
        · exact Or.inl h1
        · exact Or.inr h1
    have hchainrest : rest.Chain' nextVer := hchain.tail
    rcases hmaj with hmaj | hmaj
    · -- same major: no new group is appended, `ret[maj]` is the last group
      have hne : ¬ ((ret.length : Int) = sch.major) := by omega
      have hidx : 0 ≤ sch.major ∧ sch.major.toNat < ret.length := by
        constructor <;> omega
      have hlast : sch.major.toNat + 1 = ret.length := by omega
      obtain ⟨G, hG, hGj⟩ := ih
        (ret.set sch.major.toNat (ret.get ⟨sch.major.toNat, hidx.2⟩ ++ [sch])) m
        (by simpa using hlen) hm (by simpa [hmaj] using hheadrest) hchainrest
      refine ⟨G, ?_, ?_⟩
      · simpa [asArrayLoop, hne, hidx] using hG
      · rw [hGj, flatten_set_last ret sch.major.toNat hidx.2 hlast sch]
        simp
    · -- next major: a new empty group is appended, then indexed
      have heq : (ret.length : Int) = sch.major := by omega
      have hidx : 0 ≤ sch.major ∧ sch.major.toNat < (ret ++ [[]]).length := by
        simp only [List.length_append, List.length_cons, List.length_nil]
        constructor <;> omega
      have hlast : sch.major.toNat + 1 = (ret ++ [[]]).length := by
        simp only [List.length_append, List.length_cons, List.length_nil]
        omega
      obtain ⟨G, hG, hGj⟩ := ih
        ((ret ++ [[]]).set sch.major.toNat
          ((ret ++ [[]]).get ⟨sch.major.toNat, hidx.2⟩ ++ [sch])) (m + 1)
        (by simp only [List.length_set, List.length_append, List.length_cons,
              List.length_nil]; omega)
        (by omega) (by simpa [hmaj] using hheadrest) hchainrest
      refine ⟨G, ?_, ?_⟩
      · simpa [asArrayLoop, heq, hidx] using hG
      · rw [hGj, flatten_set_last (ret ++ [[]]) sch.major.toNat hidx.2 hlast sch]
        simp

lemma asArray_flatten {l : List Sch} (hv : validChain l) :
    ∃ G, AsArray l = .ok G ∧ G.flatten = l := by
  cases l with
  | nil => exact ⟨[], rfl, rfl⟩
  | cons h t =>
    obtain ⟨ma, mi, ve⟩ := h
    have hmaj : ma = 0 := by
      have := (hv.1 ⟨ma, mi, ve⟩ (by simp)).1
      simpa using this
    subst hmaj
    have hheadt : ∀ x ∈ t.head?, x.major = 0 ∨ x.major = 0 + 1 := by
      intro x hx
      cases t with
      | nil => simp at hx
      | cons r rs =>
        simp only [List.head?_cons, Option.mem_def, Option.some.injEq] at hx
        subst hx
        rcases (List.chain'_cons.mp hv.2).1 with ⟨h1, _⟩ | ⟨h1, _⟩
        · exact Or.inl (by simpa using h1)
        · exact Or.inr (by simpa using h1)
    obtain ⟨G, hG, hGj⟩ :=
      asArrayLoop_ok t [[⟨0, mi, ve⟩]] 0 (by simp) le_rfl hheadt hv.2.tail
    refine ⟨G, ?_, by simpa using hGj⟩
    have hstep : asArrayLoop (⟨0, mi, ve⟩ :: t) [] = asArrayLoop t [[⟨0, mi, ve⟩]] := by
      simp [asArrayLoop]
    rw [AsArray, hstep]
    exact hG

lemma savScanFlat_found_none {a : List Sch} {err : Option String} {s : Sch}
    (h : (savScanFlat a err).1 = some s) : savScanFlat a err = (some s, none) := by
  induction a generalizing err with
  | nil => simp [savScanFlat] at h
  | cons x rest ih =>
    cases hx : x.verr with
    | none =>
      simp only [savScanFlat, hx] at h ⊢
      simpa using h
    | some e =>
      simp only [savScanFlat, hx] at h ⊢
      exact ih h

lemma savScanFlat_append_found {a b : List Sch} {err : Option String} {s : Sch}
    (h : (savScanFlat a err).1 = some s) :
    savScanFlat (a ++ b) err = savScanFlat a err := by
  induction a generalizing err with
  | nil => simp [savScanFlat] at h
  | cons x rest ih =>
    cases hx : x.verr with
    | none => simp [savScanFlat, hx]
    | some e =>
      simp only [savScanFlat, hx, List.cons_append] at h ⊢
      exact ih h

lemma savScanFlat_append_none {a b : List Sch} {err : Option String}
    (h : (savScanFlat a err).1 = none) :
    savScanFlat (a ++ b) err = savScanFlat b (savScanFlat a err).2 := by
  induction a generalizing err with
  | nil => simp [savScanFlat]
  | cons x rest ih =>
    cases hx : x.verr with
    | none => simp [savScanFlat, hx] at h
    | some e =>
      simp only [savScanFlat, hx, List.cons_append] at h ⊢
      exact ih h

lemma savOuter_eq (G : List (List Sch)) (err : Option String) :
    savOuter G err = savScanFlat (G.map List.reverse).flatten err := by
  induction G generalizing err with
  | nil => simp [savOuter, savScanFlat]
  | cons grp rest ih =>
    simp only [savOuter, List.map_cons, List.flatten_cons]
    cases hfst : (savScanFlat grp.reverse err).1 with
    | some s =>
      rw [savScanFlat_append_found hfst, savScanFlat_found_none hfst]
    | none =>
      rw [savScanFlat_append_none hfst]
      have : savScanFlat grp.reverse err = (none, (savScanFlat grp.reverse err).2) := by
        rw [← hfst]
      rw [this]
      exact ih _

lemma searchAndValidate_eq_scan {l : List Sch} (hv : validChain l) :
    SearchAndValidate l = .ok (savScanFlat l.reverse none) := by
  obtain ⟨G, hG, hGj⟩ := asArray_flatten hv
  have h1 : SearchAndValidate l = .ok (savOuter G.reverse none) := by
    rw [SearchAndValidate, hG]
  rw [h1, savOuter_eq]
  congr 1
  rw [List.map_reverse, ← List.reverse_flatten, hGj]

lemma savScanFlat_max : ∀ (r : List Sch) (err : Option String),
    r.Pairwise (fun a b => verLT b a) → ∀ x ∈ r, x.verr = none →
    ∃ y, savScanFlat r err = (some y, none) ∧ y ∈ r ∧ y.verr = none ∧
      ∀ z ∈ r, z.verr = none → verLE z y := by
  intro r
  induction r with
  | nil => intro err _ x hx; cases hx
  | cons a rest ih =>
    intro err hp x hx hacc
    cases ha : a.verr with
    | none =>
      refine ⟨a, by simp [savScanFlat, ha], by simp, ha, ?_⟩
      intro z hz _
      rcases List.mem_cons.mp hz with rfl | hz
      · exact Or.inr ⟨rfl, le_rfl⟩
      · rcases (List.pairwise_cons.mp hp).1 z hz with h | ⟨h1, h2⟩
        · exact Or.inl h
        · exact Or.inr ⟨h1, le_of_lt h2⟩
    | some e =>
      have hxr : x ∈ rest := by
        rcases List.mem_cons.mp hx with rfl | hxr
        · rw [hacc] at ha; cases ha
        · exact hxr
      obtain ⟨y, hr, hy, hyacc, hmax⟩ :=
        ih (some e) (List.pairwise_cons.mp hp).2 x hxr hacc
      refine ⟨y, by simp [savScanFlat, ha, hr], List.mem_cons_of_mem _ hy, hyacc, ?_⟩
      intro z hz hzacc
      rcases List.mem_cons.mp hz with rfl | hz
      · rw [hzacc] at ha; cases ha
      · exact hmax z hz hzacc

lemma savScanFlat_allfail : ∀ (r : List Sch) (err : Option String),
    (∀ x ∈ r, x.verr ≠ none) → ∀ y, r.getLast? = some y →
    savScanFlat r err = (none, y.verr) := by
  intro r
  induction r with
  | nil => intro err _ y hy; simp at hy
  | cons a rest ih =>
    intro err hall y hy
    cases ha : a.verr with
    | none => exact absurd ha (hall a (by simp))
    | some e =>
      cases rest with
      | nil =>
        simp only [List.getLast?_singleton, Option.some.injEq] at hy
        subst hy
        simp [savScanFlat, ha]
      | cons r2 rs =>
        have hy2 : (r2 :: rs).getLast? = some y := by
          rw [← hy, List.getLast?_cons_cons]
        simp only [savScanFlat, ha]
        exact ih (some e) (fun x hx => hall x (List.mem_cons_of_mem _ hx)) y hy2

/-- C1: the claim asserts `Find s (Exact (major s) (minor s)) = s`, in
particular for the first schema at version `(0, 0)`.  The code violates
this: `Exact(0, 0)` leaves the option struct indistinguishable from the
zero `ssopt`, so `ssopt.validate` counts zero set modes and `Find` hits
the panic marked `unreachable`, instead of returning the schema. -/
theorem find_exact_zero_zero_panics :
    Find [⟨0, 0, none⟩] (Exact 0 0)
      = .error "unreachable:may only pass one SchemaSearchOption" ∧
    Find [⟨0, 0, none⟩, ⟨0, 1, none⟩] (Exact 0 1)
      = .ok [⟨0, 1, none⟩] := ⟨rfl, rfl⟩

/-- C2: the claim asserts `Find s (LatestInMajor m)` returns the
highest-minor schema of major `m`, or nil when `m` exceeds the top major.
The code violates this for every `m`: the `LatestInMajor` constructor sets
only `latestInMajor` and never `hasLatestInMajor`, so `ssopt.validate`
always fails and `Find` panics (with the zero-mode message when `m = 0`,
and with the disambiguation message otherwise). -/
theorem find_latestInMajor_always_panics :
    Find [⟨0, 0, none⟩, ⟨0, 1, none⟩, ⟨1, 0, none⟩] (LatestInMajor 0)
      = .error "unreachable:may only pass one SchemaSearchOption" ∧
    Find [⟨0, 0, none⟩, ⟨0, 1, none⟩, ⟨1, 0, none⟩] (LatestInMajor 1)
      = .error
        "unreachable:latestInMajor should never be non-zero if hasLatestInMajor is false, got 1" ∧
    Find [⟨0, 0, none⟩, ⟨0, 1, none⟩, ⟨1, 0, none⟩] (LatestInMajor 2)
      = .error
        "unreachable:latestInMajor should never be non-zero if hasLatestInMajor is false, got 2" :=
  ⟨rfl, rfl, rfl⟩

/-- C3: on a valid lineage chain, `SearchAndValidate` returns an accepting
schema that is newest among all accepting schemas (major descending, then
minor descending), whenever any schema accepts the instance. -/
theorem searchAndValidate_newest_wins (l : List Sch) (hv : validChain l)
    (x : Sch) (hx : x ∈ l) (hacc : x.verr = none) :
    ∃ y, SearchAndValidate l = .ok (some y, none) ∧ y ∈ l ∧ y.verr = none ∧
      ∀ z ∈ l, z.verr = none → verLE z y := by
  have hscan := searchAndValidate_eq_scan hv
  have hp : l.reverse.Pairwise (fun a b => verLT b a) :=
    List.pairwise_reverse.mpr (validChain_pairwise hv.2)
  obtain ⟨y, hr, hy, hyacc, hmax⟩ :=
    savScanFlat_max l.reverse none hp x (List.mem_reverse.mpr hx) hacc
  exact ⟨y, by rw [hscan, hr], List.mem_reverse.mp hy, hyacc,
    fun z hz hzacc => hmax z (List.mem_reverse.mpr hz) hzacc⟩

/-- Witness for `searchAndValidate_newest_wins` at a concrete three-schema
chain in which versions 0.0 and 1.0 accept and 0.1 rejects. -/
theorem searchAndValidate_newest_wins_witness :
    ∃ y, SearchAndValidate [⟨0, 0, none⟩, ⟨0, 1, some "e"⟩, ⟨1, 0, none⟩]
        = .ok (some y, none) ∧
      y ∈ [⟨0, 0, none⟩, ⟨0, 1, some "e"⟩, ⟨1, 0, none⟩] ∧ y.verr = none ∧
      ∀ z ∈ [⟨0, 0, none⟩, ⟨0, 1, some "e"⟩, ⟨1, 0, none⟩], z.verr = none → verLE z y :=
  searchAndValidate_newest_wins _
    ⟨by intro h hh; rw [show h = (⟨0, 0, none⟩ : Sch) by simpa using hh.symm]
        exact ⟨rfl, rfl⟩, by
      refine List.chain'_cons.mpr ⟨Or.inl ⟨rfl, rfl⟩, ?_⟩
      exact List.chain'_cons.mpr ⟨Or.inr ⟨rfl, rfl⟩, List.chain'_singleton _⟩⟩
    ⟨0, 0, none⟩ (by simp) rfl

/-- C4 counterexample: with two schemas that fail with two distinct
diagnostics, `SearchAndValidate` returns only the diagnostic of the last
schema attempted (the oldest, version 0.0); the returned error is a single
message, not an aggregate of both. -/
theorem searchAndValidate_error_not_aggregated :
    SearchAndValidate [⟨0, 0, some "diagnostic of schema 0.0"⟩,
        ⟨0, 1, some "diagnostic of schema 0.1"⟩]
      = .ok (none, some "diagnostic of schema 0.0") ∧
    "diagnostic of schema 0.0" ≠ "diagnostic of schema 0.1" :=
  ⟨rfl, by decide⟩

/-- C4 amended: when the instance fails to validate against every schema of
a valid lineage chain, `SearchAndValidate` returns a nil schema together
with the single validation error of the last schema attempted — the oldest
one, at the head of the chain — with no aggregation or deduplication. -/
theorem searchAndValidate_total_failure (h : Sch) (t : List Sch)
    (hv : validChain (h :: t)) (hall : ∀ x ∈ h :: t, x.verr ≠ none) :
    SearchAndValidate (h :: t) = .ok (none, h.verr) := by
  have hscan := searchAndValidate_eq_scan hv
  have hlast : (h :: t).reverse.getLast? = some h := by
    rw [List.getLast?_reverse]; rfl
  rw [hscan, savScanFlat_allfail (h :: t).reverse none
    (fun x hx => hall x (List.mem_reverse.mp hx)) h hlast]

/-- Witness for `searchAndValidate_total_failure` at a concrete two-schema
chain. -/
theorem searchAndValidate_total_failure_witness :
    SearchAndValidate [⟨0, 0, some "e0"⟩, ⟨0, 1, some "e1"⟩]
      = .ok (none, (⟨0, 0, some "e0"⟩ : Sch).verr) :=
  searchAndValidate_total_failure ⟨0, 0, some "e0"⟩ [⟨0, 1, some "e1"⟩]
    ⟨by intro x hx
        rw [show x = (⟨0, 0, some "e0"⟩ : Sch) by simpa using hx.symm]
        exact ⟨rfl, rfl⟩,
      List.chain'_cons.mpr ⟨Or.inl ⟨rfl, rfl⟩, List.chain'_singleton _⟩⟩
    (by intro x hx; rcases List.mem_cons.mp hx with rfl | hx <;> simp_all)

lemma validate_isSome_of_modeCount_ne_one (p : Ssopt) (h : modeCount p ≠ 1) :
    p.validate.isSome := by
  unfold modeCount at h
  unfold Ssopt.validate
  by_cases h1 : p.hasLatestInMajor <;>
    by_cases h2 : p.latestInMajor = -1 <;>
    by_cases h3 : p.latest <;>
    by_cases h4 : p.exact = ((0 : Int), (0 : Int)) <;>
    by_cases h5 : p.latestInCurrentMajor <;>
    by_cases h6 : p.latestInMajor = 0 <;>
    simp only [h1, h2, h3, h4, h5, h6, if_true, if_false, ite_true, ite_false,
      not_true, not_false_iff, ne_eq, and_true, and_false, true_and, false_and,
      if_neg, if_pos, Bool.true_eq_false, Bool.false_eq_true] at h ⊢ <;>
    first
      | rfl
      | omega
      | (revert h; decide)

/-- C5 counterexample: `Find` on a nil schema returns nil normally instead
of raising the programmer-error panic the claim requires. -/
theorem find_nil_schema_returns_nil :
    Find [] Latest = .ok [] := rfl

/-- C5 amended: an option that selects zero or more than one search mode
makes `Find` panic with a programmer error on any non-nil schema, while a
nil schema makes `Find` return nil without panicking for every option. -/
theorem find_option_misuse_panics :
    (∀ (s : List Sch) (opt : SearchOption), s ≠ [] →
      modeCount (opt ssoptZero) ≠ 1 → ∃ msg, Find s opt = .error msg) ∧
    (∀ opt : SearchOption, Find [] opt = .ok []) := by
  constructor
  · intro s opt hne hmc
    obtain ⟨h, t, rfl⟩ : ∃ h t, s = h :: t := by
      cases s with
      | nil => exact absurd rfl hne
      | cons h t => exact ⟨h, t, rfl⟩
    obtain ⟨e, he⟩ := Option.isSome_iff_exists.mp
      (validate_isSome_of_modeCount_ne_one (opt ssoptZero) hmc)
    exact ⟨"unreachable:" ++ e, by rw [Find, he]⟩
  · intro opt; rfl

/-- Witness for `find_option_misuse_panics`: the identity option function
(selecting zero modes) makes `Find` panic on a one-schema chain. -/
theorem find_option_misuse_panics_witness :
    ∃ msg, Find [⟨0, 0, none⟩] (fun p => p) = .error msg :=
  find_option_misuse_panics.1 [⟨0, 0, none⟩] (fun p => p)
    (by decide) (by decide)

/-- C10: starting `AsArray` (and hence `SearchAndValidate`) from any schema
whose major version exceeds 0 makes the `ret[maj]` index out of range on
the very first iteration, so both calls panic instead of returning. -/
theorem asArray_panics_when_start_major_positive (h : Sch) (t : List Sch)
    (hmaj : 0 < h.major) :
    AsArray (h :: t) = .error "runtime error: index out of range" ∧
    SearchAndValidate (h :: t) = .error "runtime error: index out of range" := by
  have h1 : AsArray (h :: t) = .error "runtime error: index out of range" := by
    rw [AsArray]
    have hne : ¬ (((([] : List (List Sch)).length : Int)) = h.major) := by
      simp only [List.length_nil, Nat.cast_zero]
      omega
    have hnidx : ¬ (0 ≤ h.major ∧
        h.major.toNat < (([] : List (List Sch))).length) := by
      simp only [List.length_nil]
      omega
    simp only [asArrayLoop, hne, if_false, ite_false]
    rw [dif_neg hnidx]
  exact ⟨h1, by rw [SearchAndValidate, h1]⟩

/-- Witness for `asArray_panics_when_start_major_positive` at a concrete
one-schema chain starting at version 1.0. -/
theorem asArray_panics_when_start_major_positive_witness :
    AsArray [⟨1, 0, none⟩] = .error "runtime error: index out of range" ∧
    SearchAndValidate [⟨1, 0, none⟩] = .error "runtime error: index out of range" :=
  asArray_panics_when_start_major_positive ⟨1, 0, none⟩ [] (by decide)

/-! ## A model of `cue.Value` and the adapter operations

The constraint engine (cuelang) is a third-party dependency; §4.1 of the spec
fixes the contract the core needs from it (compile, unify, subsume, kinds,
fields, defaults, path lookup, list access).  The fragment below models a
`cue.Value` deeply: concrete primitives, primitive types, structs with
optional fields, concrete (closed) lists, open lists `[...E]`, disjunctions
with an optionally marked default branch, and bottom. -/

/-- Primitive kinds of the modelled constraint language. -/
inductive PKind where
  | str
  | int
  | bool
  | null
deriving DecidableEq, Repr

/-- Concrete primitive values. -/
inductive Prim where
  | str : String → Prim
  | int : Int → Prim
  | bool : Bool → Prim
  | null : Prim
deriving DecidableEq, Repr

/-- The primitive kind of a concrete primitive. -/
def Prim.pkind : Prim → PKind
  | .str _ => .str
  | .int _ => .int
  | .bool _ => .bool
  | .null => .null

/-- Modelled from the spec: the opaque `cue.Value` (§4.1), restricted to the
fragment the instance utilities walk.  `struct` fields are
`(label, optional?, value)` triples in source order; `olist e` is the
incomplete list type `[...e]`; `disj bs d` is a disjunction whose branch
`d` (when present) is marked as the default. -/
inductive CueV where
  | prim : Prim → CueV
  | typ : PKind → CueV
  | struct : List (String × Bool × CueV) → CueV
  | clist : List CueV → CueV
  | olist : CueV → CueV
  | disj : List CueV → Option Nat → CueV
  | bot : CueV

/-- A struct field: label, optional flag, value. -/
abbrev Fld := String × Bool × CueV

/-- Kinds as reported by `Kind()`/`IncompleteKind()`: `mixed` plays the role
of the union kind of a non-uniform disjunction. -/
inductive IKind where
  | bot
  | str
  | int
  | bool
  | null
  | list
  | struct
  | mixed
deriving DecidableEq, Repr

/-- The `IKind` of a primitive kind. -/
def PKind.ikind : PKind → IKind
  | .str => .str
  | .int => .int
  | .bool => .bool
  | .null => .null

/-- Join of incomplete kinds over disjunction branches. -/
def kjoin : IKind → IKind → IKind
  | .bot, k => k
  | k, .bot => k
  | k, k' => if k = k' then k else .mixed

mutual
/-- Modelled from the spec: `kind(v)` in its incomplete form
(`cue.Value.IncompleteKind`) — the kind a value may still take. -/
def incompleteKind : CueV → IKind
  | .prim p => p.pkind.ikind
  | .typ t => t.ikind
  | .struct _ => .struct
  | .clist _ => .list
  | .olist _ => .list
  | .disj bs _ => ikindL bs
  | .bot => .bot
termination_by v => sizeOf v
/-- Union of the incomplete kinds of a list of branches. -/
def ikindL : List CueV → IKind
  | [] => .bot
  | v :: rest => kjoin (incompleteKind v) (ikindL rest)
termination_by l => sizeOf l
end

/-- Modelled from the spec: `cue.Value.Kind()` — the concrete kind, and
`BottomKind` for any value that is not concrete. -/
def kindOf : CueV → IKind
  | .prim p => p.pkind.ikind
  | .clist _ => .list
  | .struct _ => .struct
  | _ => .bot

/-- Modelled from the spec: `v.Len().Int64()` — `some` for concrete lists
(and strings), `none` when the length is not concrete (the `Int64` error). -/
def lenOf : CueV → Option Int
  | .clist l => some (l.length : Int)
  | .prim (.str s) => some (s.length : Int)
  | _ => none

/-- Operators reported by `cue.Value.Expr()`, restricted to what
`getDefault` and `getBranch` inspect. -/
inductive EOp where
  | or
  | noop
deriving DecidableEq, Repr

/-- Modelled from the spec: `cue.Value.Expr()` — a disjunction exposes
`OrOp` and its branches, everything else is a no-op around itself. -/
def expr : CueV → EOp × List CueV
  | .disj bs _ => (.or, bs)
  | v => (.noop, [v])

/-- Modelled from the spec: `cue.Value.Default()`.  A disjunction with a
marked branch reports that branch; per the list-defaults quirk the spec
records, an incomplete list type reports the empty list as an existing
default; everything else reports itself with `false`. -/
def cueDefault : CueV → CueV × Bool
  | .disj bs (some i) => (bs.getD i .bot, true)
  | .olist _ => (.clist [], true)
  | v => (v, false)

/-- Modelled from the spec: `lookup_path(v, label)` — field lookup on a
struct, non-existing on anything else. -/
def lookupPath (l : String) : CueV → Option CueV
  | .struct fs => (fs.find? (fun f => f.1 = l)).map (fun f => f.2.2)
  | _ => none

/-- Replace the first field with the given label, or append a new regular
field. -/
def setField : List Fld → String → CueV → List Fld
  | [], l, v => [(l, false, v)]
  | (l', o, w) :: fs, l, v =>
    if l' = l then (l', o, v) :: fs else (l', o, w) :: setField fs l v

/-- Modelled from the spec: `FillPath` with a one-label path — sets the
field on a struct; on any non-struct value the fill conflicts and the
result is bottom. -/
def fillPath (l : String) (v : CueV) : CueV → CueV
  | .struct fs => .struct (setField fs l v)
  | _ => .bot

/-- Modelled from the spec: `any_element(v)` — `LookupPath(cue.AnyIndex)`,
the per-element pattern constraint; it exists only on an incomplete list
type. -/
def anyElem : CueV → Option CueV
  | .olist e => some e
  | _ => none

/-- Modelled from the spec: `list_elements(v)` — `cue.Value.List()`, which
errors on anything but a concrete list. -/
def listElems : CueV → Except String (List CueV)
  | .clist l => .ok l
  | _ => .error "not a list"

/-- Modelled from the spec: `fields(v, include_optional := true)` —
`cue.Value.Fields(cue.Optional(true))`. -/
def fieldsOpt : CueV → Except String (List Fld)
  | .struct fs => .ok fs
  | _ => .error "not a struct"

/-- Modelled from the spec: `fields(v)` without optionals —
`cue.Value.Fields()`, iterating only regular fields. -/
def fieldsReg : CueV → Except String (List Fld)
  | .struct fs => .ok (fs.filter (fun f => !f.2.1))
  | _ => .error "not a struct"

mutual
/-- Modelled from the spec: `is_concrete(v)`, which is also what
`Validate(cue.Concrete(true)) == nil` checks: concrete and free of bottom. -/
def isConcrete : CueV → Bool
  | .prim _ => true
  | .clist l => isConcreteL l
  | .struct fs => isConcreteFS fs
  | _ => false
termination_by v => sizeOf v
/-- All elements concrete. -/
def isConcreteL : List CueV → Bool
  | [] => true
  | v :: vs => isConcrete v && isConcreteL vs
termination_by l => sizeOf l
/-- All field values concrete. -/
def isConcreteFS : List Fld → Bool
  | [] => true
  | (_, _, v) :: fs => isConcrete v && isConcreteFS fs
termination_by l => sizeOf l
end

lemma sizeOf_getD_bot_le (bs : List CueV) (i : Nat) :
    sizeOf (bs.getD i CueV.bot) ≤ sizeOf bs := by
  rw [List.getD_eq_getElem?_getD]
  cases h : bs[i]? with
  | none =>
    have h1 : 1 ≤ sizeOf bs := by cases bs <;> simp_arith
    simpa using h1
  | some x =>
    have hx : x ∈ bs := by
      have := List.getElem?_eq_some_iff.mp h
      obtain ⟨hlt, hget⟩ := this
      exact hget ▸ List.getElem_mem hlt
    simpa using le_of_lt (List.sizeOf_lt_of_mem hx)

mutual
/-- Modelled from the spec: `cue.Value.Eval()` — eager evaluation, which
resolves marked disjunction defaults and evaluates recursively. -/
def evalV : CueV → CueV
  | .disj bs (some i) => evalV (bs.getD i .bot)
  | .disj bs none => .disj bs none
  | .struct fs => .struct (evalFS fs)
  | .clist l => .clist (evalL l)
  | .olist e => .olist (evalV e)
  | .prim p => .prim p
  | .typ t => .typ t
  | .bot => .bot
termination_by v => sizeOf v
decreasing_by
  · have := sizeOf_getD_bot_le bs i
    simp only [CueV.disj.sizeOf_spec]
    have h2 : 0 < sizeOf (some i) := by cases i <;> simp_arith
    omega
  · simp_arith
  · simp_arith
  · simp_arith
/-- Eager evaluation of struct fields. -/
def evalFS : List Fld → List Fld
  | [] => []
  | (l, o, v) :: fs => (l, o, evalV v) :: evalFS fs
termination_by l => sizeOf l
/-- Eager evaluation of list elements. -/
def evalL : List CueV → List CueV
  | [] => []
  | v :: vs => evalV v :: evalL vs
termination_by l => sizeOf l
end

lemma sizeOf_find?_lt {gs : List Fld} {g : Fld} {p : Fld → Bool}
    (h : gs.find? p = some g) : sizeOf g.2.2 < sizeOf gs := by
  have hg : g ∈ gs := List.mem_of_find?_eq_some h
  have h1 : sizeOf g < sizeOf gs := List.sizeOf_lt_of_mem hg
  obtain ⟨gl, go, gv⟩ := g
  simp_arith at h1 ⊢
  omega

mutual
/-- Modelled from the spec: `subsumes(broad, narrow)` (§4.1), i.e.
`broad.Subsume(narrow) == nil`: every concrete value of `narrow` is also
admitted by `broad`.  Structs are open (extra fields in the narrow value
are fine); a disjunction subsumes when one branch does, and is subsumed
when every branch is. -/
def subsume : CueV → CueV → Bool
  | _, .bot => true
  | .bot, _ => false
  | .disj as _, b => subsumeAny as b
  | a, .disj bs _ => subsumeAll a bs
  | .prim p, .prim q => p = q
  | .typ t, .prim p => p.pkind = t
  | .typ t, .typ u => t = u
  | .prim _, .typ _ => false
  | .clist as, .clist bs => (as.length = bs.length : Bool) && subsumeZip as bs
  | .olist e, .clist bs => subsumeElems e bs
  | .olist a, .olist b => subsume a b
  | .clist _, .olist _ => false
  | .struct fs, .struct gs => subsumeFS fs gs
  | _, _ => false
termination_by a b => sizeOf a + sizeOf b
/-- Some branch subsumes the value. -/
def subsumeAny : List CueV → CueV → Bool
  | [], _ => false
  | a :: as, b => subsume a b || subsumeAny as b
termination_by as b => sizeOf as + sizeOf b
/-- The value subsumes every branch. -/
def subsumeAll : CueV → List CueV → Bool
  | _, [] => true
  | a, b :: bs => subsume a b && subsumeAll a bs
termination_by a bs => sizeOf a + sizeOf bs
/-- Pointwise subsumption of equal-length lists. -/
def subsumeZip : List CueV → List CueV → Bool
  | [], _ => true
  | _ :: _, [] => true
  | a :: as, b :: bs => subsume a b && subsumeZip as bs
termination_by as bs => sizeOf as + sizeOf bs
/-- The element type subsumes every element. -/
def subsumeElems : CueV → List CueV → Bool
  | _, [] => true
  | e, b :: bs => subsume e b && subsumeElems e bs
termination_by e bs => sizeOf e + sizeOf bs
/-- Field-wise struct subsumption: every broad field must be present and
subsuming in the narrow struct, unless it is optional. -/
def subsumeFS : List Fld → List Fld → Bool
  | [], _ => true
  | (l, o, v) :: fs, gs =>
    (match h : gs.find? (fun g => g.1 = l) with
     | some g => subsume v g.2.2
     | none => o) && subsumeFS fs gs
termination_by fs gs => sizeOf fs + sizeOf gs
decreasing_by
  · have := sizeOf_find?_lt h
    simp_arith
    omega
  · simp_arith
end

/-- The fields of `gs` whose label does not occur in `fs` (kept as-is by
struct unification). -/
def structRest (fs gs : List Fld) : List Fld :=
  gs.filter (fun g => fs.all (fun f => f.1 ≠ g.1))

mutual
/-- Modelled from the spec: `unify(a, b)` (§4.1) — intersection of
constraints; the result may be bottom.  Disjunctions distribute; structs
merge fields. -/
def unify : CueV → CueV → CueV
  | .bot, _ => .bot
  | _, .bot => .bot
  | .disj as d, b => .disj (unifyEachL as b) d
  | a, .disj bs d => .disj (unifyEachR a bs) d
  | .prim p, .prim q => if p = q then .prim p else .bot
  | .prim p, .typ t => if p.pkind = t then .prim p else .bot
  | .typ t, .prim p => if p.pkind = t then .prim p else .bot
  | .typ t, .typ u => if t = u then .typ t else .bot
  | .clist as, .clist bs =>
    if as.length = bs.length then .clist (unifyZip as bs) else .bot
  | .olist e, .clist bs => .clist (unifyEachR e bs)
  | .clist as, .olist e => .clist (unifyEachL as e)
  | .olist a, .olist b => .olist (unify a b)
  | .struct fs, .struct gs => .struct (unifyFS fs gs ++ structRest fs gs)
  | _, _ => .bot
termination_by a b => sizeOf a + sizeOf b
/-- Unify every list element with a fixed right-hand value. -/
def unifyEachL : List CueV → CueV → List CueV
  | [], _ => []
  | a :: as, v => unify a v :: unifyEachL as v
termination_by as v => sizeOf as + sizeOf v
/-- Unify a fixed left-hand value with every list element. -/
def unifyEachR : CueV → List CueV → List CueV
  | _, [] => []
  | v, b :: bs => unify v b :: unifyEachR v bs
termination_by v bs => sizeOf v + sizeOf bs
/-- Pointwise unification of equal-length lists. -/
def unifyZip : List CueV → List CueV → List CueV
  | a :: as, b :: bs => unify a b :: unifyZip as bs
  | _, _ => []
termination_by as bs => sizeOf as + sizeOf bs
/-- Merge fields of the left struct with the matching fields of the right
struct. -/
def unifyFS : List Fld → List Fld → List Fld
  | [], _ => []
  | (l, o, v) :: fs, gs =>
    (match h : gs.find? (fun g => g.1 = l) with
     | some g => (l, o && g.2.1, unify v g.2.2)
     | none => (l, o, v)) :: unifyFS fs gs
termination_by fs gs => sizeOf fs + sizeOf gs
decreasing_by
  · have := sizeOf_find?_lt h
    simp_arith
    omega
  · simp_arith
end

lemma anyElem_eq_some {v e : CueV} (h : anyElem v = some e) : v = .olist e := by
  cases v <;> simp [anyElem] at h <;> rw [h]

lemma listElems_eq_ok {v : CueV} {l : List CueV} (h : listElems v = .ok l) :
    v = .clist l := by
  cases v <;> simp [listElems] at h <;> rw [h]

lemma fieldsOpt_eq_ok {v : CueV} {fs : List Fld} (h : fieldsOpt v = .ok fs) :
    v = .struct fs := by
  cases v <;> simp [fieldsOpt] at h <;> rw [h]

/-- `getDefault` from `surface.go`: wraps the adapter default extraction,
filtering out empty-list defaults that are not backed by an explicit empty
list branch of a disjunction. -/
def getDefault (icue : CueV) : CueV × Bool :=
  let de := cueDefault icue
  if de.2 = true ∧ kindOf de.1 = .list then
    match lenOf de.1 with
    | none => (de.1, false)
    | some len =>
      if len ≤ 0 then
        let od := expr icue
        if od.1 = .or then
          if od.2.any (fun val =>
              decide (kindOf val = IKind.list) && decide ((lenOf val).getD 0 ≤ 0)) then
            (de.1, de.2)
          else (de.1, false)
        else (de.1, false)
      else (de.1, de.2)
  else (de.1, de.2)

/-- `isCueValueEqual` from `surface.go`: a value equals a default when the
default exists and the two subsume each other. -/
def isCueValueEqual (inputdef input : CueV) : Bool :=
  let de := getDefault inputdef
  if de.2 then subsume input de.1 && subsume de.1 input else false

/-- `getBranch` from `surface.go`: on a disjunction, pick the first branch
whose unification with the concrete object validates as concrete; on
anything else return the schema object unchanged. -/
def getBranch (schemaObj concretObj : CueV) : Except String CueV :=
  let od := expr schemaObj
  if od.1 = .or then
    match od.2.find? (fun d => isConcrete (unify d concretObj)) with
    | some d => .ok d
    | none => .error "no branch is found for list"
  else .ok schemaObj

lemma getBranch_sizeOf {s c r : CueV} (h : getBranch s c = .ok r) :
    sizeOf r ≤ sizeOf s := by
  cases s with
  | disj bs dd =>
    simp only [getBranch, expr, if_pos] at h
    cases hf : bs.find? (fun d => isConcrete (unify d c)) with
    | none => simp [hf] at h
    | some x =>
      simp only [hf, Except.ok.injEq] at h
      subst h
      have h1 := List.sizeOf_lt_of_mem (List.mem_of_find?_eq_some hf)
      simp_arith
      omega
  | prim p => simp [getBranch, expr] at h; subst h; exact le_rfl
  | typ t => simp [getBranch, expr] at h; subst h; exact le_rfl
  | struct fs => simp [getBranch, expr] at h; subst h; exact le_rfl
  | clist l => simp [getBranch, expr] at h; subst h; exact le_rfl
  | olist e => simp [getBranch, expr] at h; subst h; exact le_rfl
  | bot => simp [getBranch, expr] at h; subst h; exact le_rfl

lemma one_le_sizeOf_list {α : Type} [SizeOf α] (l : List α) : 1 ≤ sizeOf l := by
  cases l <;> simp_arith

mutual
/-- `applyDefaultHelper` from `surface.go`: recursive walk of
(input, schema) filling defaults.  Lists with an element pattern recurse
per element through the matching disjunction branch; structs iterate all
schema fields (optional ones included); everything else unifies input with
schema. -/
def applyDefaultHelper (input scue : CueV) : Except String CueV :=
  match incompleteKind scue with
  | .list =>
    match hele : anyElem scue with
    | some ele =>
      if incompleteKind ele = .bot then
        .error "cannot get the element of list"
      else
        match hin : listElems input with
        | .error _ => .error "cannot apply defaults for list"
        | .ok elems =>
          match adhList ele elems with
          | .error e => .error e
          | .ok iterlist => .ok (.clist iterlist)
    | none => .ok (unify input scue)
  | .struct =>
    match hf : fieldsOpt scue with
    | .error e => .error e
    | .ok flds => .ok (adhStruct input flds)
  | _ => .ok (unify input scue)
termination_by (sizeOf scue + 1, sizeOf input + 1)
decreasing_by
  · rw [anyElem_eq_some hele, listElems_eq_ok hin]
    apply Prod.Lex.left
    simp_arith
  · rw [fieldsOpt_eq_ok hf]
    apply Prod.Lex.left
    simp_arith
/-- The element loop of the list arm of `applyDefaultHelper`: each element
recurses through its `getBranch`; a `getBranch` error aborts, a recursion
error skips the element. -/
def adhList (ele : CueV) (elems : List CueV) : Except String (List CueV) :=
  match elems with
  | [] => .ok []
  | e :: rest =>
    match hgb : getBranch ele e with
    | .error err => .error err
    | .ok ref =>
      match applyDefaultHelper e ref with
      | .ok re =>
        match adhList ele rest with
        | .error err => .error err
        | .ok l => .ok (re :: l)
      | .error _ => adhList ele rest
termination_by (sizeOf ele + 1, sizeOf elems)
decreasing_by
  · have h1 := getBranch_sizeOf hgb
    rcases Nat.lt_or_eq_of_le h1 with h2 | h2
    · exact Prod.Lex.left _ _ (by omega)
    · rw [show sizeOf ref + 1 = sizeOf ele + 1 by omega]
      apply Prod.Lex.right
      have h3 := one_le_sizeOf_list rest
      simp_arith
      omega
  · apply Prod.Lex.right
    simp_arith
/-- The field loop of the struct arm of `applyDefaultHelper`: present
labels recurse (errors leave the field unchanged), absent non-optional
labels are filled with the eagerly evaluated schema field, absent optional
labels are skipped. -/
def adhStruct (input : CueV) (flds : List Fld) : CueV :=
  match flds with
  | [] => input
  | (lable, opt, fv) :: rest =>
    match lookupPath lable input with
    | some lv =>
      match applyDefaultHelper lv fv with
      | .ok res => adhStruct (fillPath lable res input) rest
      | .error _ => adhStruct input rest
    | none =>
      if !opt then adhStruct (fillPath lable (evalV fv) input) rest
      else adhStruct input rest
termination_by (sizeOf flds + 1, 0)
decreasing_by
  · apply Prod.Lex.left
    simp_arith
  · apply Prod.Lex.left
    simp_arith
  · apply Prod.Lex.left
    simp_arith
  · apply Prod.Lex.left
    simp_arith
end

/-- The second field loop of the struct arm of `removeDefaultHelper`: copy
into `rv` every input field whose label the schema does not know. -/
def rdhCopy (rv : CueV) (keys : List String) (inflds : List Fld) : CueV :=
  match inflds with
  | [] => rv
  | (lable, _, v) :: rest =>
    if lable ∈ keys then rdhCopy rv keys rest
    else rdhCopy (fillPath lable v rv) keys rest

mutual
/-- `removeDefaultHelper` from `surface.go`: recursive walk of
(schema, input) trimming values that equal the schema default.  The
returned `Bool` is the `isEqual` flag telling the caller to drop the
field. -/
def removeDefaultHelper (inputdef input : CueV) : Except String (CueV × Bool) :=
  -- rv := inputdef.Context().CompileString("", ...) — the empty struct
  match incompleteKind inputdef with
  | .struct =>
    match hf : fieldsOpt inputdef with
    | .error e => .error e
    | .ok flds =>
      match fieldsReg input with
      | .error e => .error e
      | .ok inflds =>
        .ok (rdhCopy (rdhStruct input (.struct []) flds)
          (flds.map (fun f => f.1)) inflds, false)
  | .list =>
    if isCueValueEqual inputdef input then .ok (.struct [], true)
    else
      match hele : anyElem inputdef with
      | some ele =>
        if incompleteKind ele = .bot then .ok (.struct [], true)
        else
          match listElems input with
          | .error _ => .ok (.struct [], true)
          | .ok elems => .ok (.clist (rdhList ele elems), false)
      | none => .ok (input, false)
  | _ =>
    if isCueValueEqual inputdef input then .ok (input, true)
    else .ok (input, false)
termination_by (sizeOf inputdef + 1, sizeOf input + 1)
decreasing_by
  · rw [fieldsOpt_eq_ok hf]
    apply Prod.Lex.left
    simp_arith
  · rw [anyElem_eq_some hele]
    apply Prod.Lex.left
    simp_arith
/-- The first field loop of the struct arm of `removeDefaultHelper`:
schema-known labels present in the input are trimmed recursively and kept
in `rv` only when the recursion succeeds with `isEqual = false`. -/
def rdhStruct (input rv : CueV) (flds : List Fld) : CueV :=
  match flds with
  | [] => rv
  | (lable, _, fv) :: rest =>
    match lookupPath lable input with
    | some lv =>
      match removeDefaultHelper fv lv with
      | .ok (re, false) => rdhStruct input (fillPath lable re rv) rest
      | .ok (_, true) => rdhStruct input rv rest
      | .error _ => rdhStruct input rv rest
    | none => rdhStruct input rv rest
termination_by (sizeOf flds + 1, 0)
decreasing_by
  · apply Prod.Lex.left
    simp_arith
  · apply Prod.Lex.left
    simp_arith
  · apply Prod.Lex.left
    simp_arith
/-- The element loop of the list arm of `removeDefaultHelper`: an element
is replaced by its trimmed form only when branch selection and recursion
succeed with `isEqual = false`; otherwise the original element is kept. -/
def rdhList (ele : CueV) (elems : List CueV) : List CueV :=
  match elems with
  | [] => []
  | e :: rest =>
    match hgb : getBranch ele e with
    | .error _ => e :: rdhList ele rest
    | .ok ref =>
      match removeDefaultHelper ref e with
      | .ok (re, false) => re :: rdhList ele rest
      | .ok (_, true) => e :: rdhList ele rest
      | .error _ => e :: rdhList ele rest
termination_by (sizeOf ele + 1, sizeOf elems)
decreasing_by
  · apply Prod.Lex.right
    simp_arith
  · have h1 := getBranch_sizeOf hgb
    rcases Nat.lt_or_eq_of_le h1 with h2 | h2
    · exact Prod.Lex.left _ _ (by omega)
    · rw [show sizeOf ref + 1 = sizeOf ele + 1 by omega]
      apply Prod.Lex.right
      have h3 := one_le_sizeOf_list rest
      simp_arith
      omega
  · apply Prod.Lex.right
    simp_arith
end

/-- The dynamic payloads a `Resource.Value` (a Go `interface{}`) can hold
in the claims under study: a string, a byte slice, a Go struct, a
`cue.Value`, or nil. -/
inductive GoVal where
  | str : String → GoVal
  | bytes : List Nat → GoVal
  | goStruct : GoVal
  | cueVal : CueV → GoVal
  | nil : GoVal

/-- `Resource` from `surface.go`: a concrete data payload plus an optional
name. -/
structure Resource where
  Value : GoVal
  Name : String

/-- The result of running a Go function that may panic: either the panic
message or the returned value. -/
inductive Outcome (α : Type) where
  | panicked : String → Outcome α
  | ret : α → Outcome α

/-- The Go dynamic type name used in the type-assertion panic message. -/
def goTypeName : GoVal → String
  | .str _ => "string"
  | .bytes _ => "[]uint8"
  | .goStruct => "struct"
  | .cueVal _ => "cue.Value"
  | .nil => "nil"

/-- The message of the panic raised by the failed type assertion
`r.Value.(string)`. -/
def typeAssertPanicMsg (v : GoVal) : String :=
  "interface conversion: interface \x7b\x7d is " ++ goTypeName v ++ ", not string"

/-- `bytes.Replace(s, pat, rep, -1)` on character lists: replace every
occurrence of `pat` by `rep`. -/
def bytesReplace (pat rep : List Char) : List Char → List Char
  | [] => []
  | c :: rest =>
    if h : pat ≠ [] ∧ (c :: rest).take pat.length = pat then
      rep ++ bytesReplace pat rep ((c :: rest).drop pat.length)
    else
      c :: bytesReplace pat rep rest
termination_by s => s.length
decreasing_by
  · have hp : 1 ≤ pat.length := by
      cases hpat : pat with
      | nil => exact absurd hpat h.1
      | cons p ps => simp
    simp only [List.length_drop, List.length_cons]
    omega
  · simp

/-- String form of `bytesReplace`. -/
def strReplaceAll (s pat rep : String) : String :=
  String.mk (bytesReplace pat.toList rep.toList s.toList)

/-- `convertCUEValueToString` from `surface.go`: marshal to JSON via the
adapter, then undo the three HTML escapes.  `marshal` is the adapter
operation `marshal_json`. -/
def convertCUEValueToString (marshal : CueV → Except String String) (v : CueV) :
    Except String String :=
  match marshal v with
  | .error e => .error e
  | .ok re =>
    .ok (strReplaceAll (strReplaceAll (strReplaceAll re "\\u003c" "<") "\\u003e" ">")
      "\\u0026" "&")

/-- `ApplyDefaults` from `surface.go`.  `compile` is the adapter
operation `compile(source, filename)`.  The unchecked type assertion
`r.Value.(string)` panics on any non-string payload. -/
def ApplyDefaults (compile : String → String → Except String CueV)
    (marshal : CueV → Except String String) (r : Resource) (scue : CueV) :
    Outcome (Resource × Option String) :=
  let name := if r.Name = "" then "resource" else r.Name
  match r.Value with
  | .str sval =>
    match compile sval name with
    | .error e => .ret (r, some e)
    | .ok rv =>
      match applyDefaultHelper rv scue with
      | .error e => .ret (r, some e)
      | .ok rvUnified =>
        match convertCUEValueToString marshal rvUnified with
        | .error e => .ret (r, some e)
        | .ok re => .ret ({ Value := .str re, Name := "" }, none)
  | v => .panicked (typeAssertPanicMsg v)

/-- `TrimDefaults` from `surface.go`.  Same adapter parameters and the same
unchecked type assertion as `ApplyDefaults`. -/
def TrimDefaults (compile : String → String → Except String CueV)
    (marshal : CueV → Except String String) (r : Resource) (scue : CueV) :
    Outcome (Resource × Option String) :=
  let name := if r.Name = "" then "resource" else r.Name
  match r.Value with
  | .str sval =>
    match compile sval name with
    | .error e => .ret (r, some e)
    | .ok rvInstance =>
      match removeDefaultHelper scue rvInstance with
      | .error e => .ret (r, some e)
      | .ok (rv, _) =>
        match convertCUEValueToString marshal rv with
        | .error e => .ret (r, some e)
        | .ok re => .ret ({ Value := .str re, Name := "" }, none)
  | v => .panicked (typeAssertPanicMsg v)

/-! ## Lemmas about field lookup and update -/

lemma lookupPath_setField_self (fs : List Fld) (lb : String) (v : CueV) :
    lookupPath lb (.struct (setField fs lb v)) = some v := by
  induction fs with
  | nil => simp [setField, lookupPath]
  | cons f rest ih =>
    obtain ⟨l', o, w⟩ := f
    by_cases h : l' = lb
    · subst h
      simp [setField, lookupPath]
    · simp only [setField, if_neg h]
      simpa [lookupPath, List.find?_cons, h] using ih

lemma lookupPath_setField_ne (fs : List Fld) (lb lb' : String) (v : CueV)
    (h : lb' ≠ lb) :
    lookupPath lb' (.struct (setField fs lb v)) = lookupPath lb' (.struct fs) := by
  induction fs with
  | nil => simp [setField, lookupPath, Ne.symm h]
  | cons f rest ih =>
    obtain ⟨l', o, w⟩ := f
    by_cases h2 : l' = lb
    · subst h2
      simp [setField, lookupPath, List.find?_cons, Ne.symm h]
    · simp only [setField, if_neg h2]
      by_cases h3 : l' = lb'
      · subst h3
        simp [lookupPath, List.find?_cons]
      · simpa [lookupPath, List.find?_cons, h3] using ih

lemma lookupPath_none_iff (fs : List Fld) (lb : String) :
    lookupPath lb (.struct fs) = none ↔ lb ∉ fs.map (fun f => f.1) := by
  simp only [lookupPath, Option.map_eq_none', List.find?_eq_none,
    decide_eq_true_eq, List.mem_map]
  constructor
  · rintro h ⟨f, hf, rfl⟩
    exact h f hf rfl
  · intro h f hf hlb
    exact h ⟨f, hf, hlb⟩

lemma lookupPath_some_mem {fs : List Fld} {lb : String} {v : CueV}
    (h : lookupPath lb (.struct fs) = some v) : ∃ op, (lb, op, v) ∈ fs := by
  simp only [lookupPath, Option.map_eq_some'] at h
  obtain ⟨f, hf, hv⟩ := h
  obtain ⟨l', o, w⟩ := f
  have h1 := List.find?_some hf
  simp only [decide_eq_true_eq] at h1
  subst h1
  simp only at hv
  subst hv
  exact ⟨o, List.mem_of_find?_eq_some hf⟩

lemma mem_lookupPath_some {fs : List Fld} {lb : String} {op : Bool} {v : CueV}
    (hnd : (fs.map (fun f => f.1)).Nodup) (h : (lb, op, v) ∈ fs) :
    lookupPath lb (.struct fs) = some v := by
  induction fs with
  | nil => cases h
  | cons f rest ih =>
    obtain ⟨l', o, w⟩ := f
    simp only [List.map_cons, List.nodup_cons] at hnd
    rcases List.mem_cons.mp h with heq | hmem
    · injection heq with h1 h2
      subst h1
      injection h2 with h3 h4
      subst h4
      simp [lookupPath]
    · have hne : l' ≠ lb := by
        intro hc
        subst hc
        exact hnd.1 (List.mem_map.mpr ⟨(l', op, v), hmem, rfl⟩)
      simpa [lookupPath, List.find?_cons, hne] using ih hnd.2 hmem

/-- One-step unfolding of `applyDefaultHelper` on a struct schema. -/
lemma applyDefaultHelper_struct (input : CueV) (fs : List Fld) :
    applyDefaultHelper input (.struct fs) = .ok (adhStruct input fs) := by
  simp [applyDefaultHelper, incompleteKind, fieldsOpt]

/-- The per-field contract of the struct arm of `applyDefaultHelper`: a
present label holds the recursion result (or stays unchanged when the
recursion errors); an absent non-optional label holds the eagerly
evaluated schema field; an absent optional label stays absent. -/
def adhFieldSpec (cur out : CueV) (lb : String) (op : Bool) (fv : CueV) : Prop :=
  match lookupPath lb cur with
  | some lv =>
    (∀ res, applyDefaultHelper lv fv = .ok res → lookupPath lb out = some res) ∧
    (∀ e, applyDefaultHelper lv fv = .error e → lookupPath lb out = some lv)
  | none =>
    if op then lookupPath lb out = none
    else lookupPath lb out = some (evalV fv)

lemma adhStruct_spec : ∀ (fs : List Fld) (cur : List Fld),
    (fs.map (fun f => f.1)).Nodup →
    ∃ out : List Fld,
      adhStruct (.struct cur) fs = .struct out ∧
      (∀ lb op fv, (lb, op, fv) ∈ fs → adhFieldSpec (.struct cur) (.struct out) lb op fv) ∧
      (∀ lb, lb ∉ fs.map (fun f => f.1) →
        lookupPath lb (.struct out) = lookupPath lb (.struct cur)) := by
  intro fs
  induction fs with
  | nil =>
    exact fun cur _ =>
      ⟨cur, by simp [adhStruct], fun lb op fv h => absurd h (List.not_mem_nil _),
        fun lb _ => rfl⟩
  | cons f rest ih =>
    obtain ⟨lb₀, op₀, fv₀⟩ := f
    intro cur hnd
    simp only [List.map_cons, List.nodup_cons] at hnd
    obtain ⟨hnotin, hndr⟩ := hnd
    cases hl : lookupPath lb₀ (.struct cur) with
    | some lv =>
      cases ha : applyDefaultHelper lv fv₀ with
      | ok res =>
        have hstep : adhStruct (.struct cur) ((lb₀, op₀, fv₀) :: rest)
            = adhStruct (.struct (setField cur lb₀ res)) rest := by
          simp [adhStruct, hl, ha, fillPath]
        obtain ⟨out, hout, hrule, hkeep⟩ := ih (setField cur lb₀ res) hndr
        refine ⟨out, by rw [hstep, hout], ?_, ?_⟩
        · intro lb op fv hmem
          rcases List.mem_cons.mp hmem with heq | hmem2
          · simp only [Prod.mk.injEq] at heq
            obtain ⟨rfl, rfl, rfl⟩ := heq
            unfold adhFieldSpec
            rw [hl]
            constructor
            · intro res' hres'
              rw [ha] at hres'
              injection hres' with hres'
              subst hres'
              rw [hkeep lb hnotin, lookupPath_setField_self]
            · intro e he
              rw [ha] at he
              cases he
          · have hlbne : lb ≠ lb₀ := fun hc =>
              hnotin (hc ▸ List.mem_map.mpr ⟨(lb, op, fv), hmem2, rfl⟩)
            have hfs := hrule lb op fv hmem2
            unfold adhFieldSpec at hfs ⊢
            rw [lookupPath_setField_ne cur lb₀ lb res hlbne] at hfs
            exact hfs
        · intro lb hlb
          simp only [List.map_cons, List.mem_cons, not_or] at hlb
          rw [hkeep lb hlb.2, lookupPath_setField_ne cur lb₀ lb res hlb.1]
      | error e =>
        have hstep : adhStruct (.struct cur) ((lb₀, op₀, fv₀) :: rest)
            = adhStruct (.struct cur) rest := by
          simp [adhStruct, hl, ha]
        obtain ⟨out, hout, hrule, hkeep⟩ := ih cur hndr
        refine ⟨out, by rw [hstep, hout], ?_, ?_⟩
        · intro lb op fv hmem
          rcases List.mem_cons.mp hmem with heq | hmem2
          · simp only [Prod.mk.injEq] at heq
            obtain ⟨rfl, rfl, rfl⟩ := heq
            unfold adhFieldSpec
            rw [hl]
            constructor
            · intro res' hres'
              rw [ha] at hres'
              cases hres'
            · intro e' he'
              rw [hkeep lb hnotin, hl]
          · exact hrule lb op fv hmem2
        · intro lb hlb
          simp only [List.map_cons, List.mem_cons, not_or] at hlb
          exact hkeep lb hlb.2
    | none =>
      cases op₀ with
      | true =>
        have hstep : adhStruct (.struct cur) ((lb₀, true, fv₀) :: rest)
            = adhStruct (.struct cur) rest := by
          simp [adhStruct, hl]
        obtain ⟨out, hout, hrule, hkeep⟩ := ih cur hndr
        refine ⟨out, by rw [hstep, hout], ?_, ?_⟩
        · intro lb op fv hmem
          rcases List.mem_cons.mp hmem with heq | hmem2
          · simp only [Prod.mk.injEq] at heq
            obtain ⟨rfl, rfl, rfl⟩ := heq
            unfold adhFieldSpec
            rw [hl]
            simp [hkeep lb hnotin, hl]
          · exact hrule lb op fv hmem2
        · intro lb hlb
          simp only [List.map_cons, List.mem_cons, not_or] at hlb
          exact hkeep lb hlb.2
      | false =>
        have hstep : adhStruct (.struct cur) ((lb₀, false, fv₀) :: rest)
            = adhStruct (.struct (setField cur lb₀ (evalV fv₀))) rest := by
          simp [adhStruct, hl, fillPath]
        obtain ⟨out, hout, hrule, hkeep⟩ := ih (setField cur lb₀ (evalV fv₀)) hndr
        refine ⟨out, by rw [hstep, hout], ?_, ?_⟩
        · intro lb op fv hmem
          rcases List.mem_cons.mp hmem with heq | hmem2
          · simp only [Prod.mk.injEq] at heq
            obtain ⟨rfl, rfl, rfl⟩ := heq
            unfold adhFieldSpec
            rw [hl]
            simp [hkeep lb hnotin, lookupPath_setField_self]
          · have hlbne : lb ≠ lb₀ := fun hc =>
              hnotin (hc ▸ List.mem_map.mpr ⟨(lb, op, fv), hmem2, rfl⟩)
            have hfs := hrule lb op fv hmem2
            unfold adhFieldSpec at hfs ⊢
            rw [lookupPath_setField_ne cur lb₀ lb (evalV fv₀) hlbne] at hfs
            exact hfs
        · intro lb hlb
          simp only [List.map_cons, List.mem_cons, not_or] at hlb
          rw [hkeep lb hlb.2, lookupPath_setField_ne cur lb₀ lb (evalV fv₀) hlb.1]

/-- C6: for a struct-kind schema and a struct input, `applyDefaultHelper`
(the recursive core of `ApplyDefaults`) iterates all schema fields
including optional ones and, for each field label: recurses when the input
has the label, fills the eagerly evaluated schema field when the label is
absent and non-optional, and leaves the label absent when it is absent and
optional; labels the schema does not mention are untouched. -/
theorem applyDefaults_struct_fields (fs ifs : List Fld)
    (hnd : (fs.map (fun f => f.1)).Nodup) :
    ∃ out : List Fld,
      applyDefaultHelper (.struct ifs) (.struct fs) = .ok (.struct out) ∧
      (∀ lb op fv, (lb, op, fv) ∈ fs →
        adhFieldSpec (.struct ifs) (.struct out) lb op fv) ∧
      (∀ lb, lb ∉ fs.map (fun f => f.1) →
        lookupPath lb (.struct out) = lookupPath lb (.struct ifs)) := by
  obtain ⟨out, hout, hrule, hkeep⟩ := adhStruct_spec fs ifs hnd
  exact ⟨out, by rw [applyDefaultHelper_struct, hout], hrule, hkeep⟩

/-- Witness for `applyDefaults_struct_fields` on a schema with a present
field, an absent defaulted field and an absent optional field. -/
theorem applyDefaults_struct_fields_witness :
    ∃ out : List Fld,
      applyDefaultHelper (.struct [("a", false, .prim (.int 1))])
          (.struct [("a", false, .typ .int),
            ("b", false, .disj [.prim (.int 42), .typ .int] (some 0)),
            ("c", true, .typ .str)])
        = .ok (.struct out) ∧
      (∀ lb op fv,
        (lb, op, fv) ∈ [(("a" : String), false, CueV.typ .int),
            ("b", false, .disj [.prim (.int 42), .typ .int] (some 0)),
            ("c", true, .typ .str)] →
        adhFieldSpec (.struct [("a", false, .prim (.int 1))]) (.struct out) lb op fv) ∧
      (∀ lb, lb ∉ [(("a" : String), false, CueV.typ .int),
            ("b", false, .disj [.prim (.int 42), .typ .int] (some 0)),
            ("c", true, .typ .str)].map (fun f => f.1) →
        lookupPath lb (.struct out) = lookupPath lb
          (.struct [("a", false, .prim (.int 1))])) :=
  applyDefaults_struct_fields _ _ (by simp)

/-- On a schema value of neither struct nor list incomplete kind,
`removeDefaultHelper` returns the input unchanged together with exactly
the `isCueValueEqual` verdict (mutual subsumption against the default). -/
lemma removeDefaultHelper_default (fv lv : CueV)
    (h1 : incompleteKind fv ≠ .struct) (h2 : incompleteKind fv ≠ .list) :
    removeDefaultHelper fv lv = .ok (lv, isCueValueEqual fv lv) := by
  cases hk : incompleteKind fv with
  | struct => exact absurd hk h1
  | list => exact absurd hk h2
  | bot =>
    by_cases he : isCueValueEqual fv lv <;> simp [removeDefaultHelper, hk, he]
  | str =>
    by_cases he : isCueValueEqual fv lv <;> simp [removeDefaultHelper, hk, he]
  | int =>
    by_cases he : isCueValueEqual fv lv <;> simp [removeDefaultHelper, hk, he]
  | bool =>
    by_cases he : isCueValueEqual fv lv <;> simp [removeDefaultHelper, hk, he]
  | null =>
    by_cases he : isCueValueEqual fv lv <;> simp [removeDefaultHelper, hk, he]
  | mixed =>
    by_cases he : isCueValueEqual fv lv <;> simp [removeDefaultHelper, hk, he]

/-- The per-field contract of the first struct loop of
`removeDefaultHelper`: a schema label is kept (trimmed) only when the input
has it and the recursion succeeds with `isEqual = false`; it is dropped
when the recursion reports equality or errors, and also when the input
lacks it. -/
def rdhFieldSpec (input out : CueV) (lb : String) (fv : CueV) : Prop :=
  match lookupPath lb input with
  | some lv =>
    (∀ re, removeDefaultHelper fv lv = .ok (re, false) →
      lookupPath lb out = some re) ∧
    (∀ re, removeDefaultHelper fv lv = .ok (re, true) →
      lookupPath lb out = none) ∧
    (∀ e, removeDefaultHelper fv lv = .error e → lookupPath lb out = none)
  | none => lookupPath lb out = none

lemma rdhStruct_spec : ∀ (fs : List Fld) (input : CueV) (rv : List Fld),
    (fs.map (fun f => f.1)).Nodup →
    (∀ lb op fv, (lb, op, fv) ∈ fs → lookupPath lb (.struct rv) = none) →
    ∃ out : List Fld,
      rdhStruct input (.struct rv) fs = .struct out ∧
      (∀ lb op fv, (lb, op, fv) ∈ fs → rdhFieldSpec input (.struct out) lb fv) ∧
      (∀ lb, lb ∉ fs.map (fun f => f.1) →
        lookupPath lb (.struct out) = lookupPath lb (.struct rv)) := by
  intro fs
  induction fs with
  | nil =>
    exact fun input rv _ _ =>
      ⟨rv, by simp [rdhStruct], fun lb op fv h => absurd h (List.not_mem_nil _),
        fun lb _ => rfl⟩
  | cons f rest ih =>
    obtain ⟨lb₀, op₀, fv₀⟩ := f
    intro input rv hnd hnone
    simp only [List.map_cons, List.nodup_cons] at hnd
    obtain ⟨hnotin, hndr⟩ := hnd
    have hnone₀ : lookupPath lb₀ (.struct rv) = none :=
      hnone lb₀ op₀ fv₀ (by simp)
    have hnonerest : ∀ lb op fv, (lb, op, fv) ∈ rest →
        lookupPath lb (.struct rv) = none :=
      fun lb op fv h => hnone lb op fv (List.mem_cons_of_mem _ h)
    cases hl : lookupPath lb₀ input with
    | some lv =>
      rcases hr : removeDefaultHelper fv₀ lv with e | ⟨re, beq⟩
      · -- recursion error: field dropped
        have hstep : rdhStruct input (.struct rv) ((lb₀, op₀, fv₀) :: rest)
            = rdhStruct input (.struct rv) rest := by
          simp [rdhStruct, hl, hr]
        obtain ⟨out, hout, hrule, hkeep⟩ := ih input rv hndr hnonerest
        refine ⟨out, by rw [hstep, hout], ?_, ?_⟩
        · intro lb op fv hmem
          rcases List.mem_cons.mp hmem with heq | hmem2
          · simp only [Prod.mk.injEq] at heq
            obtain ⟨rfl, rfl, rfl⟩ := heq
            unfold rdhFieldSpec
            rw [hl]
            refine ⟨?_, ?_, ?_⟩
            · intro re' hre'
              rw [hr] at hre'
              cases hre'
            · intro re' hre'
              rw [hr] at hre'
              cases hre'
            · intro e' he'
              rw [hkeep lb hnotin, hnone₀]
          · exact hrule lb op fv hmem2
        · intro lb hlb
          simp only [List.map_cons, List.mem_cons, not_or] at hlb
          exact hkeep lb hlb.2
      · cases beq with
        | true =>
          -- equal to default: field dropped
          have hstep : rdhStruct input (.struct rv) ((lb₀, op₀, fv₀) :: rest)
              = rdhStruct input (.struct rv) rest := by
            simp [rdhStruct, hl, hr]
          obtain ⟨out, hout, hrule, hkeep⟩ := ih input rv hndr hnonerest
          refine ⟨out, by rw [hstep, hout], ?_, ?_⟩
          · intro lb op fv hmem
            rcases List.mem_cons.mp hmem with heq | hmem2
            · simp only [Prod.mk.injEq] at heq
              obtain ⟨rfl, rfl, rfl⟩ := heq
              unfold rdhFieldSpec
              rw [hl]
              refine ⟨?_, ?_, ?_⟩
              · intro re' hre'
                rw [hr] at hre'
                cases hre'
              · intro re' hre'
                rw [hkeep lb hnotin, hnone₀]
              · intro e' he'
                rw [hr] at he'
                cases he'
            · exact hrule lb op fv hmem2
          · intro lb hlb
            simp only [List.map_cons, List.mem_cons, not_or] at hlb
            exact hkeep lb hlb.2
        | false =>
          -- kept, trimmed
          have hstep : rdhStruct input (.struct rv) ((lb₀, op₀, fv₀) :: rest)
              = rdhStruct input (.struct (setField rv lb₀ re)) rest := by
            simp [rdhStruct, hl, hr, fillPath]
          have hnonerest2 : ∀ lb op fv, (lb, op, fv) ∈ rest →
              lookupPath lb (.struct (setField rv lb₀ re)) = none := by
            intro lb op fv h
            have hlbne : lb ≠ lb₀ := fun hc =>
              hnotin (hc ▸ List.mem_map.mpr ⟨(lb, op, fv), h, rfl⟩)
            rw [lookupPath_setField_ne rv lb₀ lb re hlbne]
            exact hnonerest lb op fv h
          obtain ⟨out, hout, hrule, hkeep⟩ :=
            ih input (setField rv lb₀ re) hndr hnonerest2
          refine ⟨out, by rw [hstep, hout], ?_, ?_⟩
          · intro lb op fv hmem
            rcases List.mem_cons.mp hmem with heq | hmem2
            · simp only [Prod.mk.injEq] at heq
              obtain ⟨rfl, rfl, rfl⟩ := heq
              unfold rdhFieldSpec
              rw [hl]
              refine ⟨?_, ?_, ?_⟩
              · intro re' hre'
                rw [hr] at hre'
                injection hre' with hre'
                injection hre' with hre1 hre2
                subst hre1
                rw [hkeep lb hnotin, lookupPath_setField_self]
              · intro re' hre'
                rw [hr] at hre'
                injection hre' with hre'
                injection hre' with hre1 hre2
                cases hre2
              · intro e' he'
                rw [hr] at he'
                cases he'
            · exact hrule lb op fv hmem2
          · intro lb hlb
            simp only [List.map_cons, List.mem_cons, not_or] at hlb
            rw [hkeep lb hlb.2, lookupPath_setField_ne rv lb₀ lb re hlb.1]
    | none =>
      have hstep : rdhStruct input (.struct rv) ((lb₀, op₀, fv₀) :: rest)
          = rdhStruct input (.struct rv) rest := by
        simp [rdhStruct, hl]
      obtain ⟨out, hout, hrule, hkeep⟩ := ih input rv hndr hnonerest
      refine ⟨out, by rw [hstep, hout], ?_, ?_⟩
      · intro lb op fv hmem
        rcases List.mem_cons.mp hmem with heq | hmem2
        · simp only [Prod.mk.injEq] at heq
          obtain ⟨rfl, rfl, rfl⟩ := heq
          unfold rdhFieldSpec
          rw [hl, hkeep lb hnotin, hnone₀]
        · exact hrule lb op fv hmem2
      · intro lb hlb
        simp only [List.map_cons, List.mem_cons, not_or] at hlb
        exact hkeep lb hlb.2

lemma rdhCopy_spec : ∀ (inflds : List Fld) (rv : List Fld) (keys : List String),
    (inflds.map (fun f => f.1)).Nodup →
    ∃ out : List Fld,
      rdhCopy (.struct rv) keys inflds = .struct out ∧
      (∀ lb, lb ∈ keys →
        lookupPath lb (.struct out) = lookupPath lb (.struct rv)) ∧
      (∀ lb op v, (lb, op, v) ∈ inflds → lb ∉ keys →
        lookupPath lb (.struct out) = some v) ∧
      (∀ lb, lb ∉ inflds.map (fun f => f.1) →
        lookupPath lb (.struct out) = lookupPath lb (.struct rv)) := by
  intro inflds
  induction inflds with
  | nil =>
    exact fun rv keys _ =>
      ⟨rv, by simp [rdhCopy], fun lb _ => rfl,
        fun lb op v h => absurd h (List.not_mem_nil _), fun lb _ => rfl⟩
  | cons f rest ih =>
    obtain ⟨lb₀, op₀, v₀⟩ := f
    intro rv keys hnd
    simp only [List.map_cons, List.nodup_cons] at hnd
    obtain ⟨hnotin, hndr⟩ := hnd
    by_cases hk : lb₀ ∈ keys
    · have hstep : rdhCopy (.struct rv) keys ((lb₀, op₀, v₀) :: rest)
          = rdhCopy (.struct rv) keys rest := by
        simp [rdhCopy, hk]
      obtain ⟨out, hout, hkeys, hfill, hrest⟩ := ih rv keys hndr
      refine ⟨out, by rw [hstep, hout], hkeys, ?_, ?_⟩
      · intro lb op v hmem hnk
        rcases List.mem_cons.mp hmem with heq | hmem2
        · simp only [Prod.mk.injEq] at heq
          obtain ⟨rfl, rfl, rfl⟩ := heq
          exact absurd hk hnk
        · exact hfill lb op v hmem2 hnk
      · intro lb hlb
        simp only [List.map_cons, List.mem_cons, not_or] at hlb
        exact hrest lb hlb.2
    · have hstep : rdhCopy (.struct rv) keys ((lb₀, op₀, v₀) :: rest)
          = rdhCopy (.struct (setField rv lb₀ v₀)) keys rest := by
        simp [rdhCopy, hk, fillPath]
      obtain ⟨out, hout, hkeys, hfill, hrest⟩ := ih (setField rv lb₀ v₀) keys hndr
      refine ⟨out, by rw [hstep, hout], ?_, ?_, ?_⟩
      · intro lb hlbk
        have hlbne : lb ≠ lb₀ := fun hc => hk (hc ▸ hlbk)
        rw [hkeys lb hlbk, lookupPath_setField_ne rv lb₀ lb v₀ hlbne]
      · intro lb op v hmem hnk
        rcases List.mem_cons.mp hmem with heq | hmem2
        · simp only [Prod.mk.injEq] at heq
          obtain ⟨rfl, rfl, rfl⟩ := heq
          rw [hrest lb hnotin, lookupPath_setField_self]
        · exact hfill lb op v hmem2 hnk
      · intro lb hlb
        simp only [List.map_cons, List.mem_cons, not_or] at hlb
        rw [hrest lb hlb.2, lookupPath_setField_ne rv lb₀ lb v₀ hlb.1]

lemma removeDefaultHelper_struct (fs ifs : List Fld)
    (hreg : ∀ f ∈ ifs, f.2.1 = false) :
    removeDefaultHelper (.struct fs) (.struct ifs)
      = .ok (rdhCopy (rdhStruct (.struct ifs) (.struct []) fs)
          (fs.map (fun f => f.1)) ifs, false) := by
  have hfil : ifs.filter (fun f => !f.2.1) = ifs :=
    List.filter_eq_self.mpr (fun f hf => by rw [hreg f hf]; rfl)
  simp [removeDefaultHelper, incompleteKind, fieldsOpt, fieldsReg, hfil]

/-- C7 counterexample: the schema field `a: [...int]` has no default
(`isCueValueEqual` is `false` against the input value `5`), yet
`removeDefaultHelper` drops the field `a` from the output because
`input.List()` errors on the non-list value, a path the code treats as
`isEqual = true`. -/
theorem trimDefaults_removes_nondefault_field :
    removeDefaultHelper (.struct [("a", false, .olist (.typ .int))])
        (.struct [("a", false, .prim (.int 5))])
      = .ok (.struct [], false) ∧
    isCueValueEqual (.olist (.typ .int)) (.prim (.int 5)) = false := by
  constructor
  · simp [removeDefaultHelper, rdhStruct, rdhList, rdhCopy, incompleteKind, ikindL, kjoin,
      kindOf, lenOf, expr, cueDefault, lookupPath, fillPath, setField, anyElem, listElems,
      fieldsOpt, fieldsReg, getDefault, isCueValueEqual, subsume, PKind.ikind, Prim.pkind]
  · simp [isCueValueEqual, getDefault, cueDefault, kindOf, lenOf, expr]

/-- C7 amended: for a struct schema with distinct labels and a regular
struct input, `removeDefaultHelper` (the core of `TrimDefaults`) keeps a
schema-known field only when the recursive trim succeeds with
`isEqual = false` and drops it when the trim reports equality or errors;
for schema fields of neither struct nor list kind, dropping is exactly
mutual subsumption with the default (`isCueValueEqual`); and every input
label not present in the schema is retained verbatim. -/
theorem trimDefaults_struct_fields (fs ifs : List Fld)
    (hfs : (fs.map (fun f => f.1)).Nodup)
    (hifs : (ifs.map (fun f => f.1)).Nodup)
    (hreg : ∀ f ∈ ifs, f.2.1 = false) :
    ∃ out : List Fld,
      removeDefaultHelper (.struct fs) (.struct ifs) = .ok (.struct out, false) ∧
      (∀ lb op fv, (lb, op, fv) ∈ fs →
        rdhFieldSpec (.struct ifs) (.struct out) lb fv) ∧
      (∀ lb op fv lv, (lb, op, fv) ∈ fs →
        incompleteKind fv ≠ .struct → incompleteKind fv ≠ .list →
        lookupPath lb (.struct ifs) = some lv →
        (lookupPath lb (.struct out) = none ↔ isCueValueEqual fv lv = true)) ∧
      (∀ lb, lb ∉ fs.map (fun f => f.1) →
        lookupPath lb (.struct out) = lookupPath lb (.struct ifs)) := by
  obtain ⟨out1, hout1, hrule1, hkeep1⟩ :=
    rdhStruct_spec fs (.struct ifs) [] hfs (fun _ _ _ _ => by simp [lookupPath])
  obtain ⟨out, hout, hkeys, hfill, hrest⟩ :=
    rdhCopy_spec ifs out1 (fs.map (fun f => f.1)) hifs
  refine ⟨out, ?_, ?_, ?_, ?_⟩
  · rw [removeDefaultHelper_struct fs ifs hreg, hout1, hout]
  · intro lb op fv hmem
    have hlbk : lb ∈ fs.map (fun f => f.1) :=
      List.mem_map.mpr ⟨(lb, op, fv), hmem, rfl⟩
    have h1 := hrule1 lb op fv hmem
    unfold rdhFieldSpec at h1 ⊢
    rw [hkeys lb hlbk]
    exact h1
  · intro lb op fv lv hmem h1 h2 hlook
    have hlbk : lb ∈ fs.map (fun f => f.1) :=
      List.mem_map.mpr ⟨(lb, op, fv), hmem, rfl⟩
    have hfld := hrule1 lb op fv hmem
    unfold rdhFieldSpec at hfld
    rw [hlook] at hfld
    have hd := removeDefaultHelper_default fv lv h1 h2
    constructor
    · intro hnone
      by_contra hne
      rw [Bool.not_eq_true] at hne
      rw [hne] at hd
      have hs := hfld.1 lv hd
      rw [hkeys lb hlbk, hs] at hnone
      cases hnone
    · intro heq
      rw [heq] at hd
      have hs := hfld.2.1 lv hd
      rw [hkeys lb hlbk, hs]
  · intro lb hlb
    cases hl : lookupPath lb (.struct ifs) with
    | some v =>
      obtain ⟨op, hmem⟩ := lookupPath_some_mem hl
      rw [hfill lb op v hmem hlb]
    | none =>
      have hni : lb ∉ ifs.map (fun f => f.1) := (lookupPath_none_iff ifs lb).mp hl
      rw [hrest lb hni, hkeep1 lb hlb]
      simp [lookupPath]

/-- Witness for `trimDefaults_struct_fields`: a one-field schema whose
default is `"foo"`, an input carrying that default plus an extra label. -/
theorem trimDefaults_struct_fields_witness :
    ∃ out : List Fld,
      removeDefaultHelper
          (.struct [("u", false, .disj [.prim (.str "foo"), .prim (.str "bar")] (some 0))])
          (.struct [("u", false, .prim (.str "foo")), ("extra", false, .prim (.int 7))])
        = .ok (.struct out, false) ∧
      (∀ lb op fv,
        (lb, op, fv) ∈ [(("u" : String), false,
            CueV.disj [.prim (.str "foo"), .prim (.str "bar")] (some 0))] →
        rdhFieldSpec
          (.struct [("u", false, .prim (.str "foo")), ("extra", false, .prim (.int 7))])
          (.struct out) lb fv) ∧
      (∀ lb op fv lv,
        (lb, op, fv) ∈ [(("u" : String), false,
            CueV.disj [.prim (.str "foo"), .prim (.str "bar")] (some 0))] →
        incompleteKind fv ≠ .struct → incompleteKind fv ≠ .list →
        lookupPath lb (.struct [("u", false, .prim (.str "foo")),
          ("extra", false, .prim (.int 7))]) = some lv →
        (lookupPath lb (.struct out) = none ↔ isCueValueEqual fv lv = true)) ∧
      (∀ lb, lb ∉ [(("u" : String), false,
            CueV.disj [.prim (.str "foo"), .prim (.str "bar")] (some 0))].map
            (fun f => f.1) →
        lookupPath lb (.struct out) = lookupPath lb
          (.struct [("u", false, .prim (.str "foo")), ("extra", false, .prim (.int 7))])) :=
  trimDefaults_struct_fields _ _ (by simp) (by simp)
    (by intro f hf; rcases List.mem_cons.mp hf with rfl | hf2
        · rfl
        · rcases List.mem_cons.mp hf2 with rfl | hf3
          · rfl
          · cases hf3)

lemma kindOf_eq_list {v : CueV} (h : kindOf v = .list) : ∃ l, v = .clist l := by
  cases v with
  | clist l => exact ⟨l, rfl⟩
  | prim p => cases p <;> simp [kindOf, Prim.pkind, PKind.ikind] at h
  | typ t => simp [kindOf] at h
  | struct fs => simp [kindOf] at h
  | olist e => simp [kindOf] at h
  | disj bs oi => simp [kindOf] at h
  | bot => simp [kindOf] at h


/-- C8: the list-default filter of `getDefault`.  The underlying adapter
default (`cueDefault`) does report the empty list for a bare incomplete
list type — the quirk — but `getDefault` rejects it; and whenever
`getDefault` reports a list-kind default, the value is a disjunction with
a marked default branch that is a concrete list, which is either non-empty
or the empty list present among the branches. -/
theorem getDefault_list_quirk :
    (∀ e, cueDefault (.olist e) = (.clist [], true)) ∧
    (∀ e, getDefault (.olist e) = (.clist [], false)) ∧
    (∀ (v d : CueV), getDefault v = (d, true) → kindOf d = .list →
      ∃ bs i l, v = .disj bs (some i) ∧ bs.getD i .bot = .clist l ∧
        (l ≠ [] ∨ (l = [] ∧ CueV.clist [] ∈ bs))) := by
  refine ⟨fun e => rfl, fun e => by simp [getDefault, cueDefault, kindOf, lenOf, expr], ?_⟩
  intro v d h hk
  cases v with
  | prim p => simp [getDefault, cueDefault] at h
  | typ t => simp [getDefault, cueDefault] at h
  | struct fs => simp [getDefault, cueDefault] at h
  | clist l => simp [getDefault, cueDefault] at h
  | olist e => simp [getDefault, cueDefault, kindOf, lenOf, expr] at h
  | bot => simp [getDefault, cueDefault] at h
  | disj bs oi =>
    cases oi with
    | none => simp [getDefault, cueDefault] at h
    | some i =>
      unfold getDefault at h
      simp only [cueDefault] at h
      by_cases hkd : kindOf (bs.getD i CueV.bot) = IKind.list
      · rw [if_pos ⟨trivial, hkd⟩] at h
        obtain ⟨l, hl⟩ := kindOf_eq_list hkd
        rw [hl] at h
        have hlz : lenOf (CueV.clist l) = some (l.length : Int) := rfl
        simp only [hlz] at h
        by_cases hlen : (l.length : Int) ≤ 0
        · rw [if_pos hlen] at h
          have hnil : l = [] := by
            cases l with
            | nil => rfl
            | cons a as => exfalso; simp at hlen; omega
          subst hnil
          simp only [expr] at h
          rw [if_pos trivial] at h
          by_cases hany : (bs.any fun val =>
              decide (kindOf val = IKind.list) && decide ((lenOf val).getD 0 ≤ 0)) = true
          · rw [if_pos hany] at h
            have hd : d = CueV.clist [] := ((Prod.mk.injEq _ _ _ _).mp h).1.symm
            refine ⟨bs, i, [], rfl, by rw [hl, ← hd], Or.inr ⟨rfl, ?_⟩⟩
            obtain ⟨b, hb, hbp⟩ := List.any_eq_true.mp hany
            simp only [Bool.and_eq_true, decide_eq_true_eq] at hbp
            obtain ⟨lb, hlb⟩ := kindOf_eq_list hbp.1
            have hblen := hbp.2
            rw [hlb] at hblen
            simp only [lenOf, Option.getD_some] at hblen
            have hlbnil : lb = [] := by
              cases lb with
              | nil => rfl
              | cons a as => exfalso; simp at hblen; omega
            rw [hlb, hlbnil] at hb
            exact hb
          · rw [if_neg hany] at h
            simp at h
        · rw [if_neg hlen] at h
          have hd : d = CueV.clist l := ((Prod.mk.injEq _ _ _ _).mp h).1.symm
          refine ⟨bs, i, l, rfl, by rw [hl, ← hd], Or.inl ?_⟩
          intro hc
          subst hc
          simp at hlen
      · rw [if_neg (fun hc => hkd hc.2)] at h
        have hd : d = bs.getD i CueV.bot := ((Prod.mk.injEq _ _ _ _).mp h).1.symm
        rw [hd] at hk
        exact absurd hk hkd

/-- Witness for the quantified parts of `getDefault_list_quirk`, at the
incomplete list `[...int]` and the disjunction `*[] | [...int]`. -/
theorem getDefault_list_quirk_witness :
    cueDefault (.olist (.typ .int)) = (.clist [], true) ∧
    getDefault (.olist (.typ .int)) = (.clist [], false) ∧
    ∃ bs i l, (CueV.disj [.clist [], .olist (.typ .int)] (some 0))
        = .disj bs (some i) ∧ bs.getD i .bot = .clist l ∧
      (l ≠ [] ∨ (l = [] ∧ CueV.clist [] ∈ bs)) :=
  ⟨getDefault_list_quirk.1 (.typ .int), getDefault_list_quirk.2.1 (.typ .int),
    getDefault_list_quirk.2.2 (.disj [.clist [], .olist (.typ .int)] (some 0))
      (.clist [])
      (by simp [getDefault, cueDefault, kindOf, lenOf, expr]) rfl⟩

/-- C9: both `ApplyDefaults` and `TrimDefaults` open with the unchecked
type assertion `r.Value.(string)`: for every resource whose payload is not
a Go string — byte slice, Go struct, `cue.Value` or nil — both functions
panic with the interface-conversion message rather than returning an
error, for every adapter and schema. -/
theorem applyTrim_panic_on_non_string
    (compile : String → String → Except String CueV)
    (marshal : CueV → Except String String) (r : Resource) (scue : CueV)
    (h : ∀ s, r.Value ≠ .str s) :
    ApplyDefaults compile marshal r scue = .panicked (typeAssertPanicMsg r.Value) ∧
    TrimDefaults compile marshal r scue = .panicked (typeAssertPanicMsg r.Value) := by
  obtain ⟨v, n⟩ := r
  cases v with
  | str s => exact absurd rfl (h s)
  | bytes b => exact ⟨rfl, rfl⟩
  | goStruct => exact ⟨rfl, rfl⟩
  | cueVal c => exact ⟨rfl, rfl⟩
  | nil => exact ⟨rfl, rfl⟩

/-- Witness for `applyTrim_panic_on_non_string` at a nil payload with a
trivial adapter. -/
theorem applyTrim_panic_on_non_string_witness :
    ApplyDefaults (fun _ _ => .ok .bot) (fun _ => .ok "")
        { Value := .nil, Name := "" } .bot
      = .panicked (typeAssertPanicMsg (Resource.mk .nil "").Value) ∧
    TrimDefaults (fun _ _ => .ok .bot) (fun _ => .ok "")
        { Value := .nil, Name := "" } .bot
      = .panicked (typeAssertPanicMsg (Resource.mk .nil "").Value) :=
  applyTrim_panic_on_non_string (fun _ _ => .ok .bot) (fun _ => .ok "")
    { Value := .nil, Name := "" } .bot (fun _ h => GoVal.noConfusion h)

end Scuemata
